import Mathlib

/-
Shallow embedding of the fluent-client asynchronous pipeline
(minion.go, conn.go, and the unbuffered client), together with proofs
about the frozen claims C1 to C10.

Modelling conventions:
  - byte strings are lists of naturals;
  - a Go slice is modelled by its start offset into the backing array,
    its contents, and its capacity;
  - channels carry values; the presence of a reply channel is a Bool;
  - side effects that the claims talk about (locking, condvar broadcast,
    channel sends, connection dial and close) are recorded in an event
    trace emitted alongside the state change;
  - the marshaler is an injected function, as in the source.
-/

namespace Fluent

/-- Byte strings. -/
abbrev Bytes := List Nat

/-- Error kinds produced by the client, one per distinct error site in
the source. -/
inductive FErr where
  | bufferFull
  | marshalFailed
  | connectFailed
  | writeFailed
  | connNil
  | postFailed
deriving DecidableEq, Repr

/-- A record payload: either an opaque primitive value or a list of
records (the Go type interface\x7b\x7d restricted to the shapes
combineMsg inspects). -/
inductive Rec where
  | prim : Nat → Rec
  | arr : List Rec → Rec

/-- The scalar fields of a Message (msg.Tag, msg.Record, msg.Len,
msg.combined, msg.retries, and whether msg.replyCh is non-nil). -/
structure MsgCore where
  Tag : String
  Record : Rec
  Len : Nat
  combined : Bool
  retries : Nat
  hasReplyCh : Bool

/-- A Message together with its Next chain: next lists the cores of the
messages linked from msg.Next, in order; the End pointer of the source
is the last element of next (or the message itself when next is empty). -/
structure GoMsg where
  core : MsgCore
  next : List MsgCore

/-- A Go slice: offset into the backing array, contents, capacity. -/
structure GoSlice where
  start : Nat
  data : Bytes
  cap : Nat
deriving DecidableEq, Repr

/-- Length of a slice. -/
def GoSlice.len (s : GoSlice) : Nat := s.data.length

/-- Go append on a slice. When the new length fits the capacity the
backing array is reused; otherwise a fresh array is allocated (the
exact growth policy of the Go runtime is irrelevant to every claim,
which only ever inspects lengths, or capacities along paths that do
not append). -/
def goAppend (s : GoSlice) (buf : Bytes) : GoSlice :=
  if s.len + buf.length ≤ s.cap then
    { s with data := s.data ++ buf }
  else
    { start := 0, data := s.data ++ buf, cap := 2 * (s.len + buf.length) }

/-- The minion state (minion.go, struct minion), restricted to the
fields the claims are about. tagPre is the tagPrefix field of the
source. -/
structure Minion where
  address : String
  bufferLimit : Nat
  buffer : GoSlice
  pending : GoSlice
  tagPre : String
  writeThreshold : Nat
  maxConnAttempts : Nat
  maxHttpPackageSize : Nat
  httpRetries : Nat
  httpPackageGzip : Bool
  marshaler : MsgCore → Except FErr Bytes

/-- Events observable in the source, recorded in order. -/
inductive Ev where
  | lockPending
  | unlockPending
  | appended (k : Nat)
  | replied (e : Option FErr)
  | broadcast
  | released
  | dialed
  | wrote (n : Nat)
  | closedConn
deriving DecidableEq, Repr

/-- minion.serialize: when the tag prefix is non-empty it is joined to
the tag of the message with a dot, mutating msg.Tag in place (the
returned core is the mutated message); then the marshaler runs on the
mutated message. -/
def Minion.serialize (m : Minion) (msg : MsgCore) : MsgCore × Except FErr Bytes :=
  let msg :=
    if 0 < m.tagPre.length then { msg with Tag := m.tagPre ++ "." ++ msg.Tag } else msg
  (msg, m.marshaler msg)

/-- minion.appendMessage: serialize the message; on marshal failure
reply the error when a reply channel exists and stop (no broadcast: the
deferred broadcast is registered only after serialization succeeds).
Otherwise, under the pending lock, test whether the encoded bytes fit;
if not, reply buffer-full when a reply channel exists and drop the
bytes, else append them to pending. The deferred broadcast runs after
the deferred unlock, and releaseMessage runs last. -/
def Minion.appendMessage (m : Minion) (msg : MsgCore) : Minion × List Ev :=
  match (m.serialize msg).2 with
  | Except.error _ =>
      (m, (if msg.hasReplyCh then [Ev.replied (some FErr.marshalFailed)] else [])
            ++ [Ev.released])
  | Except.ok buf =>
      if m.pending.len + buf.length > m.bufferLimit then
        (m, [Ev.lockPending]
              ++ (if msg.hasReplyCh then [Ev.replied (some FErr.bufferFull)] else [])
              ++ [Ev.unlockPending, Ev.broadcast, Ev.released])
      else
        ({ m with pending := goAppend m.pending buf },
         [Ev.lockPending, Ev.appended buf.length, Ev.unlockPending, Ev.broadcast,
          Ev.released])

/-- Result of one conn.Write call seen by writePending. -/
inductive ConnWrite where
  | err
  | ok (n : Nat)
deriving DecidableEq, Repr

/-- minion.writePending: under the pending lock, fail when conn is nil,
fail (without touching pending) when the write fails, and on a write of
n bytes advance pending by n; when pending drains to empty, reset it to
the zero-length prefix of the backing buffer. -/
def Minion.writePending (m : Minion) (connLive : Bool) (w : ConnWrite) :
    Minion × Except FErr Nat :=
  if connLive = false then
    (m, Except.error FErr.connNil)
  else
    match w with
    | ConnWrite.err => (m, Except.error FErr.writeFailed)
    | ConnWrite.ok n =>
        let p : GoSlice :=
          { start := m.pending.start + n
            data := m.pending.data.drop n
            cap := m.pending.cap - n }
        let p := if p.data.length = 0 then
            { start := m.buffer.start, data := ([] : Bytes), cap := m.buffer.cap }
          else p
        ({ m with pending := p }, Except.ok n)

/-- The state of the pending buffer just after newMinion in forward
mode: buffer is a fresh empty slice of capacity bufferLimit and pending
aliases it. -/
def minionInit (m : Minion) : Prop :=
  m.buffer = { start := 0, data := [], cap := m.bufferLimit } ∧ m.pending = m.buffer

/-- One operation of the pipeline touching the pending buffer:
appendMessage from the reader, or writePending from the writer. -/
inductive MinionStep : Minion → Minion → Prop where
  | append (m : Minion) (msg : MsgCore) : MinionStep m (m.appendMessage msg).1
  | write (m : Minion) (connLive : Bool) (w : ConnWrite) :
      MinionStep m (m.writePending connLive w).1

/-- States of the pipeline reachable from the freshly constructed
minion by appendMessage and writePending operations. -/
inductive ReachableMinion : Minion → Prop where
  | init (m : Minion) (h : minionInit m) : ReachableMinion m
  | step {m m1 : Minion} (h : ReachableMinion m) (hs : MinionStep m m1) :
      ReachableMinion m1

theorem goAppend_len (s : GoSlice) (buf : Bytes) :
    (goAppend s buf).len = s.len + buf.length := by
  unfold goAppend
  split <;> simp [GoSlice.len]

theorem appendMessage_bufferLimit (m : Minion) (msg : MsgCore) :
    (m.appendMessage msg).1.bufferLimit = m.bufferLimit := by
  unfold Minion.appendMessage
  cases he : (m.serialize msg).2 with
  | error e => rfl
  | ok buf =>
      by_cases hfull : m.pending.len + buf.length > m.bufferLimit
      · simp [hfull]
      · simp [hfull]

theorem appendMessage_len_le (m : Minion) (msg : MsgCore)
    (h : m.pending.len ≤ m.bufferLimit) :
    (m.appendMessage msg).1.pending.len ≤ m.bufferLimit := by
  unfold Minion.appendMessage
  cases he : (m.serialize msg).2 with
  | error e => exact h
  | ok buf =>
      by_cases hfull : m.pending.len + buf.length > m.bufferLimit
      · simp only [hfull, if_pos]
        exact h
      · simp only [hfull, if_neg, not_false_eq_true, goAppend_len]
        omega

theorem writePending_pending_eq (m : Minion) (n : Nat) :
    (m.writePending true (ConnWrite.ok n)).1.pending =
      (if (m.pending.data.drop n).length = 0 then
        { start := m.buffer.start, data := ([] : Bytes), cap := m.buffer.cap }
       else
        { start := m.pending.start + n, data := m.pending.data.drop n,
          cap := m.pending.cap - n }) := rfl

theorem writePending_bufferLimit (m : Minion) (connLive : Bool) (w : ConnWrite) :
    (m.writePending connLive w).1.bufferLimit = m.bufferLimit := by
  cases connLive with
  | false => rfl
  | true =>
      cases w with
      | err => rfl
      | ok n => rfl

theorem writePending_len_le (m : Minion) (connLive : Bool) (w : ConnWrite)
    (h : m.pending.len ≤ m.bufferLimit) :
    (m.writePending connLive w).1.pending.len ≤ m.bufferLimit := by
  cases connLive with
  | false => exact h
  | true =>
      cases w with
      | err => exact h
      | ok n =>
          rw [writePending_pending_eq]
          by_cases hz : (m.pending.data.drop n).length = 0
          · rw [if_pos hz]
            exact Nat.zero_le _
          · rw [if_neg hz]
            simp only [GoSlice.len] at h ⊢
            simp only [List.length_drop]
            omega

/-- C1: in every reachable state of the pipeline, observed when the
pending lock is not held, the pending buffer length satisfies
0 ≤ len(pending) ≤ bufferLimit: appendMessage appends only when the
result fits within the limit, and writePending only shrinks pending. -/
theorem C1_pending_bounded (m : Minion) (h : ReachableMinion m) :
    0 ≤ m.pending.len ∧ m.pending.len ≤ m.bufferLimit := by
  refine ⟨Nat.zero_le _, ?_⟩
  induction h with
  | init m hinit =>
      rcases hinit with ⟨hb, hp⟩
      rw [hp, hb]
      simp [GoSlice.len]
  | step hr hs ih =>
      cases hs with
      | append msg =>
          rw [appendMessage_bufferLimit]
          exact appendMessage_len_le _ msg ih
      | write connLive w =>
          rw [writePending_bufferLimit]
          exact writePending_len_le _ connLive w ih

/-- A sample minion used by the witnesses: fresh forward-mode state with
bufferLimit 8 and a marshaler that encodes every message as two bytes. -/
def mSample : Minion :=
  { address := "127.0.0.1:24224"
    bufferLimit := 8
    buffer := { start := 0, data := [], cap := 8 }
    pending := { start := 0, data := [], cap := 8 }
    tagPre := ""
    writeThreshold := 4
    maxConnAttempts := 64
    maxHttpPackageSize := 10
    httpRetries := 5
    httpPackageGzip := false
    marshaler := fun _ => Except.ok [1, 2] }

/-- A sample message with a reply channel. -/
def msgSample : MsgCore :=
  { Tag := "t"
    Record := Rec.prim 0
    Len := 1
    combined := false
    retries := 0
    hasReplyCh := true }

/-- The condition variable broadcast occurs strictly after the pending
lock is released, in the given event trace. -/
def broadcastAfterUnlock (tr : List Ev) : Prop :=
  ∃ l1 l2, tr = l1 ++ Ev.unlockPending :: l2 ∧ Ev.broadcast ∈ l2

/-- C2: for every message whose serialization succeeds, appendMessage
drops the encoded bytes and leaves pending unchanged when they do not
fit, sending a buffer-full error on the reply channel exactly when one
is present; otherwise it appends the encoded bytes to pending; and in
both cases the condvar is broadcast after the pending lock is
released. -/
theorem C2_appendMessage_spec (m : Minion) (msg : MsgCore) (buf : Bytes)
    (henc : (m.serialize msg).2 = Except.ok buf) :
    ((m.pending.len + buf.length > m.bufferLimit →
        (m.appendMessage msg).1 = m ∧
        (msg.hasReplyCh = true →
          Ev.replied (some FErr.bufferFull) ∈ (m.appendMessage msg).2) ∧
        (msg.hasReplyCh = false →
          ∀ e, Ev.replied e ∉ (m.appendMessage msg).2)) ∧
      (m.pending.len + buf.length ≤ m.bufferLimit →
        (m.appendMessage msg).1.pending.data = m.pending.data ++ buf)) ∧
    broadcastAfterUnlock (m.appendMessage msg).2 := by
  have happ : m.appendMessage msg =
      (if m.pending.len + buf.length > m.bufferLimit then
        (m, [Ev.lockPending]
              ++ (if msg.hasReplyCh then [Ev.replied (some FErr.bufferFull)] else [])
              ++ [Ev.unlockPending, Ev.broadcast, Ev.released])
      else
        ({ m with pending := goAppend m.pending buf },
         [Ev.lockPending, Ev.appended buf.length, Ev.unlockPending, Ev.broadcast,
          Ev.released])) := by
    unfold Minion.appendMessage
    rw [henc]
  by_cases hfull : m.pending.len + buf.length > m.bufferLimit
  · rw [happ, if_pos hfull]
    refine ⟨⟨fun _ => ⟨rfl, ?_, ?_⟩, fun hle => absurd hle (by omega)⟩, ?_⟩
    · intro hr
      simp [hr]
    · intro hr e
      simp [hr]
    · cases hr : msg.hasReplyCh
      · exact ⟨[Ev.lockPending], [Ev.broadcast, Ev.released], by simp [hr], by simp⟩
      · exact ⟨[Ev.lockPending, Ev.replied (some FErr.bufferFull)],
          [Ev.broadcast, Ev.released], by simp [hr], by simp⟩
  · rw [happ, if_neg hfull]
    refine ⟨⟨fun hgt => absurd hgt hfull, fun _ => ?_⟩, ?_⟩
    · simp only [goAppend]
      split
      · rfl
      · rfl
    · exact ⟨[Ev.lockPending, Ev.appended buf.length], [Ev.broadcast, Ev.released],
        by simp, by simp⟩

theorem C2_appendMessage_spec_witness :
    (mSample.appendMessage msgSample).1.pending.data = mSample.pending.data ++ [1, 2] ∧
      broadcastAfterUnlock (mSample.appendMessage msgSample).2 :=
  ⟨(C2_appendMessage_spec mSample msgSample [1, 2] rfl).1.2 (by decide),
   (C2_appendMessage_spec mSample msgSample [1, 2] rfl).2⟩

/-- C9: when a successful write drains pending to empty, writePending
resets pending to the zero-length prefix of the backing buffer, whose
capacity is unchanged; and no call to writePending modifies any minion
field other than pending. -/
theorem C9_writePending_frame (m : Minion) (connLive : Bool) (w : ConnWrite) :
    ((∀ n, connLive = true → w = ConnWrite.ok n → m.pending.data.drop n = [] →
        ((m.writePending connLive w).1.pending =
            { start := m.buffer.start, data := [], cap := m.buffer.cap } ∧
          (m.writePending connLive w).1.pending.cap = m.buffer.cap)) ∧
      (m.writePending connLive w).1.buffer = m.buffer) ∧
    ((m.writePending connLive w).1.address = m.address ∧
      (m.writePending connLive w).1.bufferLimit = m.bufferLimit ∧
      (m.writePending connLive w).1.tagPre = m.tagPre ∧
      (m.writePending connLive w).1.writeThreshold = m.writeThreshold ∧
      (m.writePending connLive w).1.maxConnAttempts = m.maxConnAttempts ∧
      (m.writePending connLive w).1.maxHttpPackageSize = m.maxHttpPackageSize ∧
      (m.writePending connLive w).1.httpRetries = m.httpRetries ∧
      (m.writePending connLive w).1.httpPackageGzip = m.httpPackageGzip ∧
      (m.writePending connLive w).1.marshaler = m.marshaler) := by
  have hframe : ∀ connLive w, ((m.writePending connLive w).1.buffer = m.buffer ∧
      (m.writePending connLive w).1.address = m.address ∧
      (m.writePending connLive w).1.bufferLimit = m.bufferLimit ∧
      (m.writePending connLive w).1.tagPre = m.tagPre ∧
      (m.writePending connLive w).1.writeThreshold = m.writeThreshold ∧
      (m.writePending connLive w).1.maxConnAttempts = m.maxConnAttempts ∧
      (m.writePending connLive w).1.maxHttpPackageSize = m.maxHttpPackageSize ∧
      (m.writePending connLive w).1.httpRetries = m.httpRetries ∧
      (m.writePending connLive w).1.httpPackageGzip = m.httpPackageGzip ∧
      (m.writePending connLive w).1.marshaler = m.marshaler) := by
    intro connLive w
    cases connLive with
    | false => exact ⟨rfl, rfl, rfl, rfl, rfl, rfl, rfl, rfl, rfl, rfl⟩
    | true =>
        cases w with
        | err => exact ⟨rfl, rfl, rfl, rfl, rfl, rfl, rfl, rfl, rfl, rfl⟩
        | ok n => exact ⟨rfl, rfl, rfl, rfl, rfl, rfl, rfl, rfl, rfl, rfl⟩
  refine ⟨⟨?_, (hframe connLive w).1⟩, (hframe connLive w).2⟩
  intro n hc hw hdrain
  subst hc
  subst hw
  rw [writePending_pending_eq]
  rw [if_pos (by rw [hdrain]; rfl)]
  exact ⟨rfl, rfl⟩

/-- A sample minion whose pending buffer holds two bytes. -/
def mPend : Minion :=
  { mSample with pending := { start := 0, data := [5, 6], cap := 8 } }

theorem C9_writePending_frame_witness :
    (mPend.writePending true (ConnWrite.ok 2)).1.pending =
        { start := mPend.buffer.start, data := [], cap := mPend.buffer.cap } ∧
      (mPend.writePending true (ConnWrite.ok 2)).1.buffer = mPend.buffer ∧
      (mPend.writePending true (ConnWrite.ok 2)).1.address = mPend.address :=
  ⟨((C9_writePending_frame mPend true (ConnWrite.ok 2)).1.1 2 rfl rfl rfl).1,
   (C9_writePending_frame mPend true (ConnWrite.ok 2)).1.2,
   (C9_writePending_frame mPend true (ConnWrite.ok 2)).2.1⟩

theorem C1_pending_bounded_witness :
    0 ≤ (mSample.appendMessage msgSample).1.pending.len ∧
      (mSample.appendMessage msgSample).1.pending.len ≤
        (mSample.appendMessage msgSample).1.bufferLimit := by
  have h : ReachableMinion (mSample.appendMessage msgSample).1 :=
    ReachableMinion.step (ReachableMinion.init mSample ⟨rfl, rfl⟩)
      (MinionStep.append mSample msgSample)
  simpa using C1_pending_bounded _ h

/-- The write loop of minion.ping: while bytes remain, call conn.Write;
on a short write of n bytes continue with the remaining suffix; on a
write error stop with the error. The steps list gives the result of
each successive conn.Write call; when it runs out with bytes still
unwritten the Go loop is still blocked in Write, which the first
component none models. -/
def pingWriteLoop (buf : Bytes) (steps : List (Except Unit Nat)) :
    Option (Option FErr) × List Ev :=
  match buf, steps with
  | [], _ => (some none, [])
  | _ :: _, [] => (none, [])
  | _ :: _, Except.error _ :: _ => (some (some FErr.writeFailed), [])
  | b :: bs, Except.ok n :: rest =>
      let r := pingWriteLoop ((b :: bs).drop n) rest
      (r.1, Ev.wrote n :: r.2)

/-- minion.ping: releaseMessage is deferred first and the error reply
second, so on an error the reply is sent and then the message released.
A message without a reply channel returns nil at once. Otherwise dial a
fresh connection, serialize, and write the whole buffer in a loop. The
source never closes the ping connection, so no closedConn event is ever
emitted. -/
def Minion.ping (m : Minion) (msg : MsgCore) (dialOk : Bool)
    (steps : List (Except Unit Nat)) : Option (Option FErr) × List Ev :=
  if msg.hasReplyCh = false then
    (some none, [Ev.released])
  else if dialOk = false then
    (some (some FErr.connectFailed),
     [Ev.dialed, Ev.replied (some FErr.connectFailed), Ev.released])
  else
    match (m.serialize msg).2 with
    | Except.error _ =>
        (some (some FErr.marshalFailed),
         [Ev.dialed, Ev.replied (some FErr.marshalFailed), Ev.released])
    | Except.ok buf =>
        match pingWriteLoop buf steps with
        | (none, tr) => (none, Ev.dialed :: tr)
        | (some none, tr) => (some none, Ev.dialed :: (tr ++ [Ev.released]))
        | (some (some e), tr) =>
            (some (some e), Ev.dialed :: (tr ++ [Ev.replied (some e), Ev.released]))

/-- Total number of bytes reported written in a trace. -/
def writtenBytes : List Ev → Nat
  | [] => 0
  | Ev.wrote n :: tr => n + writtenBytes tr
  | _ :: tr => writtenBytes tr

/-- Number of dial events in a trace. -/
def dialCount : List Ev → Nat
  | [] => 0
  | Ev.dialed :: tr => 1 + dialCount tr
  | _ :: tr => dialCount tr

theorem pingWriteLoop_complete (steps : List (Except Unit Nat)) (buf : Bytes)
    (h : (pingWriteLoop buf steps).1 = some none) :
    buf.length ≤ writtenBytes (pingWriteLoop buf steps).2 := by
  induction steps generalizing buf with
  | nil =>
      cases buf with
      | nil => exact Nat.zero_le _
      | cons b bs => simp [pingWriteLoop] at h
  | cons s rest ih =>
      cases buf with
      | nil => exact Nat.zero_le _
      | cons b bs =>
          cases s with
          | error e => simp [pingWriteLoop] at h
          | ok n =>
              have h1 : (pingWriteLoop ((b :: bs).drop n) rest).1 = some none := by
                simpa [pingWriteLoop] using h
              have h2 := ih _ h1
              have hlen : ((b :: bs).drop n).length = (b :: bs).length - n := by
                simp
              simp only [pingWriteLoop, writtenBytes]
              rw [hlen] at h2
              omega

theorem pingWriteLoop_no_events (steps : List (Except Unit Nat)) (buf : Bytes) :
    Ev.closedConn ∉ (pingWriteLoop buf steps).2 ∧
      dialCount (pingWriteLoop buf steps).2 = 0 := by
  induction steps generalizing buf with
  | nil =>
      cases buf with
      | nil => exact ⟨by simp [pingWriteLoop], by simp [pingWriteLoop, dialCount]⟩
      | cons b bs => exact ⟨by simp [pingWriteLoop], by simp [pingWriteLoop, dialCount]⟩
  | cons s rest ih =>
      cases buf with
      | nil => exact ⟨by simp [pingWriteLoop], by simp [pingWriteLoop, dialCount]⟩
      | cons b bs =>
          cases s with
          | error e =>
              exact ⟨by simp [pingWriteLoop], by simp [pingWriteLoop, dialCount]⟩
          | ok n =>
              have h := ih ((b :: bs).drop n)
              refine ⟨?_, ?_⟩
              · simp only [pingWriteLoop, List.mem_cons]
                rintro (h1 | h1)
                · exact absurd h1 (by simp)
                · exact h.1 h1
              · simp only [pingWriteLoop, dialCount]
                exact h.2

theorem writtenBytes_append (a b : List Ev) :
    writtenBytes (a ++ b) = writtenBytes a + writtenBytes b := by
  induction a with
  | nil => simp [writtenBytes]
  | cons e tr ih => cases e <;> simp [writtenBytes, ih, Nat.add_assoc]

theorem dialCount_append (a b : List Ev) :
    dialCount (a ++ b) = dialCount a + dialCount b := by
  induction a with
  | nil => simp [dialCount]
  | cons e tr ih => cases e <;> simp [dialCount, ih, Nat.add_assoc]

/-- C5 counterexample: a run of the ping path in which the dial
succeeds and a single conn.Write sends both serialized bytes. The call
succeeds (returns nil), yet its event trace contains no connection
close: minion.ping never closes the connection it dialed, contradicting
the claim that the connection is closed on success. -/
theorem C5_ping_counterexample :
    (mSample.ping msgSample true [Except.ok 2]).1 = some none ∧
      Ev.closedConn ∉ (mSample.ping msgSample true [Except.ok 2]).2 := by
  exact ⟨rfl, by decide⟩

/-- C5 amended: for every ping message with a reply channel, a fresh
connection is dialed, on success the serialized bytes are written
completely by the write loop, any error from dial, serialization or
write is sent on the reply channel, ping never retries (at most one
dial), and the connection is never closed by ping (it is leaked even on
success). -/
theorem C5_ping_amended (m : Minion) (msg : MsgCore) (dialOk : Bool)
    (steps : List (Except Unit Nat)) (h : msg.hasReplyCh = true) :
    Ev.dialed ∈ (m.ping msg dialOk steps).2 ∧
      (∀ buf, (m.serialize msg).2 = Except.ok buf →
        (m.ping msg dialOk steps).1 = some none →
        buf.length ≤ writtenBytes (m.ping msg dialOk steps).2) ∧
      (∀ e, (m.ping msg dialOk steps).1 = some (some e) →
        Ev.replied (some e) ∈ (m.ping msg dialOk steps).2) ∧
      Ev.closedConn ∉ (m.ping msg dialOk steps).2 ∧
      dialCount (m.ping msg dialOk steps).2 ≤ 1 := by
  cases dialOk with
  | false =>
      have hp : m.ping msg false steps =
          (some (some FErr.connectFailed),
           [Ev.dialed, Ev.replied (some FErr.connectFailed), Ev.released]) := by
        simp [Minion.ping, h]
      rw [hp]
      refine ⟨by simp, ?_, ?_, by simp, by simp [dialCount]⟩
      · intro buf hbuf hres
        simp at hres
      · intro e hres
        have he : e = FErr.connectFailed := by
          have := hres
          simp at this
          exact this.symm
        subst he
        simp
  | true =>
      cases henc : (m.serialize msg).2 with
      | error e0 =>
          have hp : m.ping msg true steps =
              (some (some FErr.marshalFailed),
               [Ev.dialed, Ev.replied (some FErr.marshalFailed), Ev.released]) := by
            simp [Minion.ping, h, henc]
          rw [hp]
          refine ⟨by simp, ?_, ?_, by simp, by simp [dialCount]⟩
          · intro buf hbuf hres
            simp at hbuf
          · intro e hres
            have he : e = FErr.marshalFailed := by
              have := hres
              simp at this
              exact this.symm
            subst he
            simp
      | ok buf =>
          rcases hw : pingWriteLoop buf steps with ⟨r, tr⟩
          have hnc := (pingWriteLoop_no_events steps buf).1
          have hdc := (pingWriteLoop_no_events steps buf).2
          rw [hw] at hnc hdc
          simp only at hnc hdc
          cases r with
          | none =>
              have hp : m.ping msg true steps = (none, Ev.dialed :: tr) := by
                simp [Minion.ping, h, henc, hw]
              rw [hp]
              refine ⟨by simp, ?_, ?_, ?_, ?_⟩
              · intro buf1 hbuf1 hres
                simp at hres
              · intro e hres
                simp at hres
              · simp only [List.mem_cons]
                rintro (h1 | h1)
                · exact absurd h1 (by simp)
                · exact hnc h1
              · simp [dialCount, hdc]
          | some ro =>
              cases ro with
              | none =>
                  have hp : m.ping msg true steps =
                      (some none, Ev.dialed :: (tr ++ [Ev.released])) := by
                    simp [Minion.ping, h, henc, hw]
                  rw [hp]
                  refine ⟨by simp, ?_, ?_, ?_, ?_⟩
                  · intro buf1 hbuf1 hres
                    injection hbuf1 with hb
                    subst hb
                    have h1 : (pingWriteLoop buf steps).1 = some none := by
                      rw [hw]
                    have h2 := pingWriteLoop_complete steps buf h1
                    rw [hw] at h2
                    simp only at h2
                    simp only [writtenBytes, writtenBytes_append]
                    simp [writtenBytes]
                    omega
                  · intro e hres
                    simp at hres
                  · simp only [List.mem_cons]
                    rintro (h1 | h1)
                    · exact absurd h1 (by simp)
                    · rcases List.mem_append.mp h1 with h2 | h2
                      · exact hnc h2
                      · simp at h2
                  · simp [dialCount, dialCount_append, hdc]
              | some e0 =>
                  have hp : m.ping msg true steps =
                      (some (some e0),
                       Ev.dialed :: (tr ++ [Ev.replied (some e0), Ev.released])) := by
                    simp [Minion.ping, h, henc, hw]
                  rw [hp]
                  refine ⟨by simp, ?_, ?_, ?_, ?_⟩
                  · intro buf1 hbuf1 hres
                    simp at hres
                  · intro e hres
                    have he : e = e0 := by
                      have := hres
                      simp at this
                      exact this.symm
                    subst he
                    simp
                  · simp only [List.mem_cons]
                    rintro (h1 | h1)
                    · exact absurd h1 (by simp)
                    · rcases List.mem_append.mp h1 with h2 | h2
                      · exact hnc h2
                      · simp at h2
                  · simp [dialCount, dialCount_append, hdc]

theorem C5_ping_amended_witness :
    Ev.dialed ∈ (mSample.ping msgSample true [Except.ok 2]).2 ∧
      ([1, 2] : Bytes).length ≤
        writtenBytes (mSample.ping msgSample true [Except.ok 2]).2 ∧
      Ev.closedConn ∉ (mSample.ping msgSample true [Except.ok 2]).2 ∧
      dialCount (mSample.ping msgSample true [Except.ok 2]).2 ≤ 1 :=
  ⟨(C5_ping_amended mSample msgSample true [Except.ok 2] rfl).1,
   (C5_ping_amended mSample msgSample true [Except.ok 2] rfl).2.1 [1, 2] rfl rfl,
   (C5_ping_amended mSample msgSample true [Except.ok 2] rfl).2.2.2.1,
   (C5_ping_amended mSample msgSample true [Except.ok 2] rfl).2.2.2.2⟩

/-- C10: a ping message without a reply channel is released and the call
returns nil without dialing, writing, or sending anything. -/
theorem C10_ping_nil_replyCh (m : Minion) (msg : MsgCore) (dialOk : Bool)
    (steps : List (Except Unit Nat)) (h : msg.hasReplyCh = false) :
    m.ping msg dialOk steps = (some none, [Ev.released]) ∧
      Ev.dialed ∉ (m.ping msg dialOk steps).2 ∧
      (∀ n, Ev.wrote n ∉ (m.ping msg dialOk steps).2) ∧
      (∀ e, Ev.replied e ∉ (m.ping msg dialOk steps).2) := by
  have hp : m.ping msg dialOk steps = (some none, [Ev.released]) := by
    unfold Minion.ping
    rw [h]
    rfl
  refine ⟨hp, ?_, ?_, ?_⟩
  · rw [hp]; simp
  · intro n; rw [hp]; simp
  · intro e; rw [hp]; simp

theorem C10_ping_nil_replyCh_witness :
    mSample.ping { msgSample with hasReplyCh := false } true [Except.ok 2] =
        (some none, [Ev.released]) ∧
      Ev.dialed ∉
        (mSample.ping { msgSample with hasReplyCh := false } true [Except.ok 2]).2 ∧
      (∀ n, Ev.wrote n ∉
        (mSample.ping { msgSample with hasReplyCh := false } true [Except.ok 2]).2) ∧
      (∀ e, Ev.replied e ∉
        (mSample.ping { msgSample with hasReplyCh := false } true [Except.ok 2]).2) :=
  C10_ping_nil_replyCh mSample { msgSample with hasReplyCh := false } true
    [Except.ok 2] rfl

/-- The records contributed by one message of a chain, mirroring the
test the source makes both for the head and for each chained message:
an already combined record list is spread element-wise, anything else
counts as a single record. -/
def recContribution (c : MsgCore) : List Rec :=
  match c.combined, c.Record with
  | true, Rec.arr l => l
  | _, _ => [c.Record]

/-- The body of the collection loop of combineMsg: append the
contribution of the next chained message to the accumulated records. -/
def recStepFn (acc : List Rec) (c : MsgCore) : List Rec :=
  match c.combined, c.Record with
  | true, Rec.arr l => acc ++ l
  | _, _ => acc ++ [c.Record]

/-- minion.combineMsg, following the source loop: when msg.Next is nil
the message is unchanged; otherwise the records of the head and of
every chained message are collected in order, the record of an already
combined message being appended element-wise, and the head becomes a
combined message carrying the collected records as its record, their
count as Len, and a nil Next. -/
def combineMsg (msg : GoMsg) : GoMsg :=
  match msg.next with
  | [] => msg
  | _ :: _ =>
      let records := recContribution msg.core
      let records := msg.next.foldl recStepFn records
      { core := { msg.core with
          Record := Rec.arr records
          combined := true
          Len := records.length }
        next := [] }

/-- All records carried by a chain of messages, in order. -/
def chainRecords : List MsgCore → List Rec
  | [] => []
  | c :: cs => recContribution c ++ chainRecords cs

theorem recStepFn_eq (acc : List Rec) (c : MsgCore) :
    recStepFn acc c = acc ++ recContribution c := by
  rcases c with ⟨t, r, l, cb, rt, rc⟩
  cases cb with
  | false => cases r with
    | prim n => rfl
    | arr l1 => rfl
  | true => cases r with
    | prim n => rfl
    | arr l1 => rfl

theorem foldl_chainRecords (cs : List MsgCore) (init : List Rec) :
    cs.foldl recStepFn init = init ++ chainRecords cs := by
  induction cs generalizing init with
  | nil => simp [chainRecords]
  | cons c cs ih =>
      rw [List.foldl_cons, recStepFn_eq, ih, chainRecords, List.append_assoc]

/-- C7: combineMsg folds a non-nil Next chain into a single message
whose record is the ordered sequence of all the records of the chain,
already combined records being flattened element-wise, whose Len is the
total number of records, and whose Next is nil; a message with a nil
Next chain is unchanged. -/
theorem C7_combineMsg_spec (msg : GoMsg) :
    (msg.next = [] → combineMsg msg = msg) ∧
      (msg.next ≠ [] →
        (combineMsg msg).core.Record =
            Rec.arr (chainRecords (msg.core :: msg.next)) ∧
          (combineMsg msg).core.Len =
            (chainRecords (msg.core :: msg.next)).length ∧
          (combineMsg msg).next = [] ∧
          (combineMsg msg).core.combined = true ∧
          (combineMsg msg).core.Tag = msg.core.Tag) := by
  rcases msg with ⟨core, next⟩
  cases next with
  | nil => exact ⟨fun _ => rfl, fun hne => absurd rfl hne⟩
  | cons c cs =>
      refine ⟨fun he => absurd he (by simp), fun _ => ?_⟩
      have hcomb : combineMsg ⟨core, c :: cs⟩ =
          { core := { core with
              Record := Rec.arr ((c :: cs).foldl recStepFn (recContribution core))
              combined := true
              Len := ((c :: cs).foldl recStepFn (recContribution core)).length }
            next := [] } := rfl
      rw [hcomb]
      simp [foldl_chainRecords, chainRecords, recStepFn_eq]

/-- An already combined sibling carrying two records. -/
def coreCombined : MsgCore :=
  { Tag := "t"
    Record := Rec.arr [Rec.prim 2, Rec.prim 3]
    Len := 2
    combined := true
    retries := 0
    hasReplyCh := false }

/-- A plain sibling carrying one record. -/
def corePlain : MsgCore :=
  { Tag := "t"
    Record := Rec.prim 4
    Len := 1
    combined := false
    retries := 0
    hasReplyCh := false }

/-- A chained message: a head with a plain record, one already combined
sibling, and one plain sibling. -/
def msgChain : GoMsg :=
  { core := { Tag := "t"
              Record := Rec.prim 1
              Len := 1
              combined := false
              retries := 0
              hasReplyCh := false }
    next := [coreCombined, corePlain] }

theorem C7_combineMsg_spec_witness :
    (combineMsg msgChain).core.Record =
        Rec.arr (chainRecords (msgChain.core :: msgChain.next)) ∧
      (combineMsg msgChain).core.Len =
        (chainRecords (msgChain.core :: msgChain.next)).length ∧
      (combineMsg msgChain).next = [] ∧
      (combineMsg msgChain).core.combined = true :=
  ⟨((C7_combineMsg_spec msgChain).2 (by simp [msgChain])).1,
   ((C7_combineMsg_spec msgChain).2 (by simp [msgChain])).2.1,
   ((C7_combineMsg_spec msgChain).2 (by simp [msgChain])).2.2.1,
   ((C7_combineMsg_spec msgChain).2 (by simp [msgChain])).2.2.2.1⟩

/-- The environment one minion.http_post call runs in: whether the gzip
body write succeeds, whether the HTTP post returns status 200, whether
the non-blocking reply send finds a ready receiver, and whether the
http channel has room for a requeue. -/
structure HttpEnv where
  gzipWriteOk : Bool
  postOk : Bool
  replyReady : Bool
  queueHasRoom : Bool

/-- What became of the message after http_post: released (success, or
dropped after too many retries or a full queue), or requeued on the
http channel. -/
inductive HttpDisp where
  | released
  | requeued (msg : GoMsg)

/-- minion.http_post: combine the chain, serialize the head (mutating
its Tag in place), build the address, then POST (optionally gzipped).
On error the deferred handlers run: reply the error (non-blocking) when
a reply channel exists, then either drop the message when its retries
exceed httpRetries, or increment retries and requeue it when the
channel has room, dropping it otherwise. -/
def Minion.http_post (m : Minion) (msg : GoMsg) (env : HttpEnv) :
    Option FErr × HttpDisp :=
  let msg := combineMsg msg
  let sr := m.serialize msg.core
  let msg := { msg with core := sr.1 }
  let err : Option FErr :=
    match sr.2 with
    | Except.error _ => some FErr.marshalFailed
    | Except.ok _ =>
        if m.httpPackageGzip then
          if env.gzipWriteOk = false then some FErr.writeFailed
          else if env.postOk then none else some FErr.postFailed
        else if env.postOk then none else some FErr.postFailed
  match err with
  | none => (none, HttpDisp.released)
  | some e =>
      if msg.core.retries > m.httpRetries then (some e, HttpDisp.released)
      else
        let msg :=
          { msg with core := { msg.core with retries := msg.core.retries + 1 } }
        if env.queueHasRoom then (some e, HttpDisp.requeued msg)
        else (some e, HttpDisp.released)

/-- The tag of a requeued message, when the disposition is a requeue. -/
def dispTag : HttpDisp → Option String
  | HttpDisp.released => none
  | HttpDisp.requeued q => some q.core.Tag

/-- Feeding a requeued message back through http_post, as the http
dispatcher does when the message comes up again on the channel. -/
def httpRequeueStep (m : Minion) (env : HttpEnv) (d : HttpDisp) : HttpDisp :=
  match d with
  | HttpDisp.released => HttpDisp.released
  | HttpDisp.requeued q => (m.http_post q env).2

/-- A minion configured with tag prefix p. -/
def mHttp : Minion := { mSample with tagPre := "p" }

/-- A message tagged t entering the http path. -/
def msgT : GoMsg :=
  { core := { Tag := "t"
              Record := Rec.prim 0
              Len := 1
              combined := false
              retries := 0
              hasReplyCh := false }
    next := [] }

/-- An environment in which the HTTP post fails and the requeue
succeeds. -/
def envFail : HttpEnv :=
  { gzipWriteOk := true, postOk := false, replyReady := true, queueHasRoom := true }

/-- C3: the code applies the tag prefix once per serialize call, not
once per Message. A message tagged t with prefix p whose first HTTP
post fails is requeued carrying the mutated tag p.t; when the retry
serializes it again the wire tag becomes p.p.t, so a retried message
carries the prefix twice, contrary to the stated exactly-once
fingerprint. -/
theorem C3_tag_prefix_double :
    dispTag (mHttp.http_post msgT envFail).2 = some "p.t" ∧
      dispTag (httpRequeueStep mHttp envFail (mHttp.http_post msgT envFail).2) =
        some "p.p.t" ∧
      some ("p.p.t" : String) ≠ some ("p.t" : String) :=
  ⟨rfl, rfl, by decide⟩

/-- How the connect loop of runWriter ended. -/
inductive WriterConn where
  | connected (dials : Nat)
  | gaveUp (dials : Nat)
deriving DecidableEq, Repr

/-- The connect loop of minion.runWriter (the for conn == nil loop):
each iteration calls m.connect, which performs exactly one dial (on
failure the backoff helper hands back the nil connection). On success
the loop breaks with the connection. On failure, when the reader is
done, connAttempts is incremented and the writer returns once
maxConnAttempts is positive and exceeded. The first fuel argument
bounds the iterations modelled; none means the loop is still running
after that many iterations. dials counts the m.connect calls made so
far and connAttempts is the counter of the source. -/
def writerConnectLoop (maxConnAttempts : Nat) (readerDone : Bool)
    (dialOk : Nat → Bool) : Nat → Nat → Nat → Option WriterConn
  | 0, _, _ => none
  | fuel + 1, dials, connAttempts =>
      if dialOk (dials + 1) then some (WriterConn.connected (dials + 1))
      else if readerDone then
        let c := connAttempts + 1
        if 0 < maxConnAttempts ∧ maxConnAttempts < c then
          some (WriterConn.gaveUp (dials + 1))
        else writerConnectLoop maxConnAttempts readerDone dialOk fuel (dials + 1) c
      else writerConnectLoop maxConnAttempts readerDone dialOk fuel (dials + 1)
        connAttempts

theorem writerConnectLoop_all_fail (N : Nat) (dialOk : Nat → Bool)
    (hd : ∀ k, dialOk k = false) (hN : 0 < N) :
    ∀ fuel c, c ≤ N → N + 1 - c ≤ fuel →
      writerConnectLoop N true dialOk fuel c c =
        some (WriterConn.gaveUp (N + 1)) := by
  intro fuel
  induction fuel with
  | zero =>
      intro c hc hf
      omega
  | succ fuel ih =>
      intro c hc hf
      have hstep : writerConnectLoop N true dialOk (fuel + 1) c c =
          (if 0 < N ∧ N < c + 1 then some (WriterConn.gaveUp (c + 1))
           else writerConnectLoop N true dialOk fuel (c + 1) (c + 1)) := by
        rw [writerConnectLoop, hd (c + 1)]
        rfl
      rw [hstep]
      by_cases hend : N < c + 1
      · have hcN : c = N := by omega
        subst hcN
        rw [if_pos ⟨hN, by omega⟩]
      · rw [if_neg (fun hco => hend hco.2)]
        exact ih (c + 1) (by omega) (by omega)

/-- C4 counterexample: with maxConnAttempts = 1, the reader done, and
every dial failing, the connect loop has not terminated after 1 dial
attempt (1 iteration of fuel yields no result); it terminates on the
second dial, that is after more dial attempts than maxConnAttempts. -/
theorem C4_drain_attempts_counterexample :
    writerConnectLoop 1 true (fun _ => false) 1 0 0 = none ∧
      writerConnectLoop 1 true (fun _ => false) 2 0 0 =
        some (WriterConn.gaveUp 2) ∧
      1 < 2 :=
  ⟨rfl, rfl, by decide⟩

/-- C4 amended: if maxConnAttempts = N is positive and every dial
attempt fails while the writer is in drain mode, the writer task
terminates after at most N + 1 dial attempts (it makes exactly N + 1:
the counter is incremented after each failed dial and the loop returns
only once the counter strictly exceeds N). -/
theorem C4_drain_attempts_amended (N fuel : Nat) (dialOk : Nat → Bool)
    (hN : 0 < N) (hd : ∀ k, dialOk k = false) (hf : N + 1 ≤ fuel) :
    writerConnectLoop N true dialOk fuel 0 0 =
      some (WriterConn.gaveUp (N + 1)) :=
  writerConnectLoop_all_fail N dialOk hd hN fuel 0 (Nat.zero_le N) (by omega)

theorem C4_drain_attempts_amended_witness :
    writerConnectLoop 1 true (fun _ => false) 2 0 0 =
      some (WriterConn.gaveUp 2) :=
  C4_drain_attempts_amended 1 2 (fun _ => false) (by decide) (fun _ => rfl)
    (by decide)

/-- Lookup in the tag-keyed bundle map of runHTTPWriter, modelled as an
association list in insertion order. -/
def bundlesFind : List (String × GoMsg) → String → Option GoMsg
  | [], _ => none
  | (t, v) :: rest, tag => if t = tag then some v else bundlesFind rest tag

/-- Update of an existing key in the bundle map. -/
def bundlesSet : List (String × GoMsg) → String → GoMsg → List (String × GoMsg)
  | [], _, _ => []
  | (t, v) :: rest, tag, nv =>
      if t = tag then (t, nv) :: rest else (t, v) :: bundlesSet rest tag nv

/-- Splicing an incoming message onto a bundle: the head Len grows by
the incoming Len, End.Next is pointed at the incoming message, and End
becomes the incoming End, so the chain of the bundle is extended by the
whole incoming chain. -/
def spliceBundle (b nextMsg : GoMsg) : GoMsg :=
  { core := { b.core with Len := b.core.Len + nextMsg.core.Len }
    next := b.next ++ nextMsg.core :: nextMsg.next }

/-- The non-blocking drain loop of minion.runHTTPWriter: for each
message drained from httpCh, look its tag up in the bundle map; insert
it when absent; when present, post the incoming message alone when the
combined Len reaches maxHttpPackageSize, and splice it onto the bundle
otherwise. Returns the final bundle map and the messages posted alone,
in order. -/
def drainHttpCh (maxHttpPackageSize : Nat) :
    List GoMsg → List (String × GoMsg) → List GoMsg →
      List (String × GoMsg) × List GoMsg
  | [], bundles, alone => (bundles, alone)
  | nextMsg :: rest, bundles, alone =>
      match bundlesFind bundles nextMsg.core.Tag with
      | none =>
          drainHttpCh maxHttpPackageSize rest
            (bundles ++ [(nextMsg.core.Tag, nextMsg)]) alone
      | some b =>
          if maxHttpPackageSize ≤ b.core.Len + nextMsg.core.Len then
            drainHttpCh maxHttpPackageSize rest bundles (alone ++ [nextMsg])
          else
            drainHttpCh maxHttpPackageSize rest
              (bundlesSet bundles nextMsg.core.Tag (spliceBundle b nextMsg)) alone

/-- One outer iteration of minion.runHTTPWriter: the received message is
posted alone when its coalesced Len reaches maxHttpPackageSize;
otherwise it seeds the bundle map, the channel is drained, and every
remaining bundle is posted. Returns the messages posted alone, in
order, and the bundles posted after the drain. -/
def runHTTPWriterStep (maxHttpPackageSize : Nat) (msg : GoMsg)
    (queue : List GoMsg) : List GoMsg × List GoMsg :=
  if maxHttpPackageSize ≤ msg.core.Len then ([msg], [])
  else
    let r := drainHttpCh maxHttpPackageSize queue [(msg.core.Tag, msg)] []
    (r.2, r.1.map Prod.snd)

/-- A message tagged t with two coalesced records. -/
def msgA : GoMsg :=
  { core := { Tag := "t"
              Record := Rec.prim 1
              Len := 2
              combined := false
              retries := 0
              hasReplyCh := false }
    next := [] }

/-- A second message tagged t with two coalesced records. -/
def msgB : GoMsg :=
  { core := { Tag := "t"
              Record := Rec.prim 2
              Len := 2
              combined := false
              retries := 0
              hasReplyCh := false }
    next := [] }

/-- C6 counterexample: with maxHttpPackageSize = 4, a bundle of length
2 and an incoming same-tag message of length 2, appending would bring
the bundle exactly to the limit, not beyond it; the claim therefore
says the message is spliced, but the dispatcher posts it alone (the
source tests with greater-or-equal, not strictly greater). -/
theorem C6_dispatcher_counterexample :
    ¬ (4 < msgA.core.Len + msgB.core.Len) ∧
      runHTTPWriterStep 4 msgA [msgB] = ([msgB], [msgA]) :=
  ⟨by decide, rfl⟩

/-- C6 amended: a received message whose coalesced Len is at least
maxHttpPackageSize is posted alone; a drained message whose tag is
absent from the bundle map is inserted; one whose tag is present is
posted alone when the bundle Len plus its Len is at least
maxHttpPackageSize (reaching the limit already posts alone), and is
otherwise spliced onto the bundle through the End.Next pointer, the
head Len growing by the incoming Len and the chain extended by the
incoming chain. -/
theorem C6_dispatcher_amended (max : Nat) (msg nextMsg b : GoMsg)
    (queue rest : List GoMsg) (bundles : List (String × GoMsg))
    (alone : List GoMsg) :
    (max ≤ msg.core.Len → runHTTPWriterStep max msg queue = ([msg], [])) ∧
      (msg.core.Len < max →
        runHTTPWriterStep max msg queue =
          ((drainHttpCh max queue [(msg.core.Tag, msg)] []).2,
           (drainHttpCh max queue [(msg.core.Tag, msg)] []).1.map Prod.snd)) ∧
      (bundlesFind bundles nextMsg.core.Tag = none →
        drainHttpCh max (nextMsg :: rest) bundles alone =
          drainHttpCh max rest (bundles ++ [(nextMsg.core.Tag, nextMsg)]) alone) ∧
      (bundlesFind bundles nextMsg.core.Tag = some b →
        max ≤ b.core.Len + nextMsg.core.Len →
        drainHttpCh max (nextMsg :: rest) bundles alone =
          drainHttpCh max rest bundles (alone ++ [nextMsg])) ∧
      (bundlesFind bundles nextMsg.core.Tag = some b →
        b.core.Len + nextMsg.core.Len < max →
        drainHttpCh max (nextMsg :: rest) bundles alone =
            drainHttpCh max rest
              (bundlesSet bundles nextMsg.core.Tag (spliceBundle b nextMsg))
              alone ∧
          (spliceBundle b nextMsg).core.Len = b.core.Len + nextMsg.core.Len ∧
          (spliceBundle b nextMsg).core :: (spliceBundle b nextMsg).next =
            { b with core :=
                { b.core with Len := b.core.Len + nextMsg.core.Len } }.core ::
              (b.next ++ nextMsg.core :: nextMsg.next)) := by
  refine ⟨?_, ?_, ?_, ?_, ?_⟩
  · intro h
    unfold runHTTPWriterStep
    rw [if_pos h]
  · intro h
    unfold runHTTPWriterStep
    rw [if_neg (by omega)]
  · intro h
    rw [drainHttpCh, h]
  · intro h hge
    rw [drainHttpCh, h]
    simp only [if_pos hge]
  · intro h hlt
    refine ⟨?_, rfl, rfl⟩
    rw [drainHttpCh, h]
    simp only [if_neg (by omega : ¬ max ≤ b.core.Len + nextMsg.core.Len)]

theorem C6_dispatcher_amended_witness :
    runHTTPWriterStep 4 msgA [msgB] =
        ((drainHttpCh 4 [msgB] [(msgA.core.Tag, msgA)] []).2,
         (drainHttpCh 4 [msgB] [(msgA.core.Tag, msgA)] []).1.map Prod.snd) ∧
      drainHttpCh 4 (msgB :: []) [(msgA.core.Tag, msgA)] [] =
        drainHttpCh 4 [] [(msgA.core.Tag, msgA)] ([] ++ [msgB]) :=
  ⟨(C6_dispatcher_amended 4 msgA msgB msgA [msgB] [] [] []).2.1 (by decide),
   (C6_dispatcher_amended 4 msgA msgB msgA [] [] [(msgA.core.Tag, msgA)] []).2.2.2.1
     rfl (by decide)⟩

/-- Result of one conn.Write call in the write loop of
Unbuffered.Post. -/
inductive WStep where
  | wok (n : Nat)
  | weof
  | werr
deriving DecidableEq, Repr

/-- How one write attempt of Unbuffered.Post ended. -/
inductive AOut where
  | done
  | retryEof
  | failedOther
  | starved
deriving DecidableEq, Repr

/-- The write loop of Unbuffered.Post for one attempt: while payload
bytes remain, call conn.Write; a write of n bytes advances the payload,
an EOF restarts the attempt loop, any other error aborts the call.
steps lists the successive conn.Write results; starved means the list
ran out with the loop still blocked in Write. -/
def writeAttempt : Bytes → List WStep → AOut
  | [], _ => AOut.done
  | _ :: _, [] => AOut.starved
  | b :: bs, WStep.wok n :: rest => writeAttempt ((b :: bs).drop n) rest
  | _ :: _, WStep.weof :: _ => AOut.retryEof
  | _ :: _, WStep.werr :: _ => AOut.failedOther

/-- The environment Unbuffered.Post runs in: the result of the dial
made on each attempt and the conn.Write results of each attempt. -/
structure PostEnv where
  dialOk : Nat → Bool
  writes : Nat → List WStep

/-- Result of Unbuffered.Post. -/
inductive PostResult where
  | ok
  | errMaxAttempts
  | errWrite
  | errSerializeFailed
  | blocked
deriving DecidableEq, Repr

/-- The WRITE retry loop of Unbuffered.Post in forward mode: increment
the attempt counter, reset payload to the full serialized bytes, return
the exceeded-max-connection-attempts error once the counter goes past
maxConnAttempts, otherwise connect with force exactly on the second and
later attempts (a failed dial restarts the loop), and write the
payload, restarting on EOF and failing on any other write error.
Alongside the result the (attempt, force) pair of every connect call is
returned. -/
def unbufferedPostLoop (maxConnAttempts : Nat) (serialized : Bytes)
    (env : PostEnv) (attempt : Nat) : PostResult × List (Nat × Bool) :=
  let a := attempt + 1
  if _h : maxConnAttempts < a then (PostResult.errMaxAttempts, [])
  else
    if env.dialOk a = false then
      let r := unbufferedPostLoop maxConnAttempts serialized env a
      (r.1, (a, decide (1 < a)) :: r.2)
    else
      match writeAttempt serialized (env.writes a) with
      | AOut.done => (PostResult.ok, [(a, decide (1 < a))])
      | AOut.retryEof =>
          let r := unbufferedPostLoop maxConnAttempts serialized env a
          (r.1, (a, decide (1 < a)) :: r.2)
      | AOut.failedOther => (PostResult.errWrite, [(a, decide (1 < a))])
      | AOut.starved => (PostResult.blocked, [(a, decide (1 < a))])
termination_by maxConnAttempts + 1 - attempt
decreasing_by
  all_goals omega

/-- The unbuffered client (client_unbuffered.go, struct Unbuffered),
restricted to the fields the claim is about. -/
structure Unbuffered where
  address : String
  tagPre : String
  maxConnAttempts : Nat
  method : String
  marshaler : MsgCore → Except FErr Bytes

/-- Unbuffered.serialize: identical in shape to minion.serialize. -/
def Unbuffered.serialize (c : Unbuffered) (msg : MsgCore) :
    MsgCore × Except FErr Bytes :=
  let msg :=
    if 0 < c.tagPre.length then { msg with Tag := c.tagPre ++ "." ++ msg.Tag } else msg
  (msg, c.marshaler msg)

/-- Unbuffered.Post in forward mode: serialize the message, then run
the WRITE retry loop starting from a zero attempt counter. -/
def Unbuffered.Post (c : Unbuffered) (msg : MsgCore) (env : PostEnv) :
    PostResult × List (Nat × Bool) :=
  match (c.serialize msg).2 with
  | Except.error _ => (PostResult.errSerializeFailed, [])
  | Except.ok serialized => unbufferedPostLoop c.maxConnAttempts serialized env 0

theorem postLoop_all_fail (max : Nat) (buf : Bytes) (env : PostEnv)
    (hfail : ∀ k, k ≤ max →
      env.dialOk k = false ∨ writeAttempt buf (env.writes k) = AOut.retryEof) :
    ∀ n attempt, max + 1 - attempt ≤ n →
      (unbufferedPostLoop max buf env attempt).1 = PostResult.errMaxAttempts := by
  intro n
  induction n with
  | zero =>
      intro attempt hn
      rw [unbufferedPostLoop]
      rw [dif_pos (by omega : max < attempt + 1)]
  | succ n ih =>
      intro attempt hn
      rw [unbufferedPostLoop]
      by_cases hm : max < attempt + 1
      · rw [dif_pos hm]
      · rw [dif_neg hm]
        by_cases hdial : env.dialOk (attempt + 1) = false
        · rw [if_pos hdial]
          exact ih (attempt + 1) (by omega)
        · rw [if_neg hdial]
          rcases hfail (attempt + 1) (by omega) with hd | hw
          · exact absurd hd hdial
          · rw [hw]
            exact ih (attempt + 1) (by omega)

theorem postLoop_force (max : Nat) (buf : Bytes) (env : PostEnv) :
    ∀ n attempt, max + 1 - attempt ≤ n →
      ∀ k f, (k, f) ∈ (unbufferedPostLoop max buf env attempt).2 →
        f = decide (1 < k) := by
  intro n
  induction n with
  | zero =>
      intro attempt hn k f hmem
      rw [unbufferedPostLoop, dif_pos (by omega : max < attempt + 1)] at hmem
      simp at hmem
  | succ n ih =>
      intro attempt hn k f hmem
      rw [unbufferedPostLoop] at hmem
      by_cases hm : max < attempt + 1
      · rw [dif_pos hm] at hmem
        simp at hmem
      · rw [dif_neg hm] at hmem
        by_cases hdial : env.dialOk (attempt + 1) = false
        · rw [if_pos hdial] at hmem
          rcases List.mem_cons.mp hmem with hh | ht
          · cases hh
            rfl
          · exact ih (attempt + 1) (by omega) k f ht
        · rw [if_neg hdial] at hmem
          cases hwa : writeAttempt buf (env.writes (attempt + 1)) with
          | done =>
              rw [hwa] at hmem
              rcases List.mem_cons.mp hmem with hh | ht
              · cases hh
                rfl
              · simp at ht
          | retryEof =>
              rw [hwa] at hmem
              rcases List.mem_cons.mp hmem with hh | ht
              · cases hh
                rfl
              · exact ih (attempt + 1) (by omega) k f ht
          | failedOther =>
              rw [hwa] at hmem
              rcases List.mem_cons.mp hmem with hh | ht
              · cases hh
                rfl
              · simp at ht
          | starved =>
              rw [hwa] at hmem
              rcases List.mem_cons.mp hmem with hh | ht
              · cases hh
                rfl
              · simp at ht

theorem postLoop_success (max : Nat) (buf : Bytes) (env : PostEnv) :
    ∀ n k attempt, k - attempt ≤ n → attempt < k → k ≤ max →
      (∀ j, attempt < j → j < k →
        env.dialOk j = false ∨ writeAttempt buf (env.writes j) = AOut.retryEof) →
      env.dialOk k = true → writeAttempt buf (env.writes k) = AOut.done →
      (unbufferedPostLoop max buf env attempt).1 = PostResult.ok := by
  intro n
  induction n with
  | zero =>
      intro k attempt hn hlt hk hmid hdial hdone
      omega
  | succ n ih =>
      intro k attempt hn hlt hk hmid hdial hdone
      rw [unbufferedPostLoop]
      rw [dif_neg (by omega : ¬ max < attempt + 1)]
      by_cases heq : attempt + 1 = k
      · subst heq
        rw [if_neg (by rw [hdial]; simp)]
        rw [hdone]
      · have hstep : attempt + 1 < k := by omega
        rcases hmid (attempt + 1) (by omega) hstep with hd | hw
        · rw [if_pos hd]
          exact ih k (attempt + 1) (by omega) hstep hk
            (fun j h1 h2 => hmid j (by omega) h2) hdial hdone
        · by_cases hdial1 : env.dialOk (attempt + 1) = false
          · rw [if_pos hdial1]
            exact ih k (attempt + 1) (by omega) hstep hk
              (fun j h1 h2 => hmid j (by omega) h2) hdial hdone
          · rw [if_neg hdial1, hw]
            exact ih k (attempt + 1) (by omega) hstep hk
              (fun j h1 h2 => hmid j (by omega) h2) hdial hdone

/-- C8: for Unbuffered.Post in forward mode with successfully
serialized payload buf: when every attempt up to maxConnAttempts fails
to dial or hits EOF during the write, the call keeps retrying and
returns the exceeded-max-connection-attempts error once the attempt
counter passes the cap; every reconnect after the first attempt passes
force=true to connect; and when some attempt within the cap dials
successfully and writes the whole payload, the call returns nil. -/
theorem C8_unbuffered_post_spec (c : Unbuffered) (msg : MsgCore) (buf : Bytes)
    (env : PostEnv) (henc : (c.serialize msg).2 = Except.ok buf) :
    ((∀ k, k ≤ c.maxConnAttempts →
        env.dialOk k = false ∨ writeAttempt buf (env.writes k) = AOut.retryEof) →
      (c.Post msg env).1 = PostResult.errMaxAttempts) ∧
      (∀ k f, (k, f) ∈ (c.Post msg env).2 → f = decide (1 < k)) ∧
      (∀ k, 0 < k → k ≤ c.maxConnAttempts →
        (∀ j, 0 < j → j < k →
          env.dialOk j = false ∨ writeAttempt buf (env.writes j) = AOut.retryEof) →
        env.dialOk k = true → writeAttempt buf (env.writes k) = AOut.done →
        (c.Post msg env).1 = PostResult.ok) := by
  have hpost : c.Post msg env = unbufferedPostLoop c.maxConnAttempts buf env 0 := by
    unfold Unbuffered.Post
    rw [henc]
  rw [hpost]
  refine ⟨?_, ?_, ?_⟩
  · intro hfail
    exact postLoop_all_fail c.maxConnAttempts buf env hfail
      (c.maxConnAttempts + 1) 0 (by omega)
  · intro k f hmem
    exact postLoop_force c.maxConnAttempts buf env (c.maxConnAttempts + 1) 0
      (by omega) k f hmem
  · intro k hk0 hkmax hmid hdial hdone
    exact postLoop_success c.maxConnAttempts buf env k k 0 (by omega) hk0 hkmax
      hmid hdial hdone

/-- A sample unbuffered client whose marshaler encodes every message as
one byte. -/
def cSample : Unbuffered :=
  { address := "127.0.0.1:24224"
    tagPre := ""
    maxConnAttempts := 3
    method := "forward"
    marshaler := fun _ => Except.ok [9] }

/-- A sample environment: the first dial fails, the second succeeds and
its single write sends the whole byte. -/
def envPost : PostEnv :=
  { dialOk := fun k => decide (k = 2)
    writes := fun _ => [WStep.wok 1] }

theorem C8_unbuffered_post_spec_witness :
    (cSample.Post msgSample envPost).1 = PostResult.ok :=
  (C8_unbuffered_post_spec cSample msgSample [9] envPost rfl).2.2 2 (by decide)
    (by decide)
    (by
      intro j h1 h2
      left
      have hj : j = 1 := by omega
      subst hj
      rfl)
    rfl rfl

end Fluent
